import Mathlib

/-!
Shallow embedding of the hotbits entropy pipeline.

Sources modelled:
- src/testing/rng-extractor.c : interval_compare, von_neumann_extract,
  xor_fold, extract_lsbs
- src/testing/vomneu.c        : debias_bits
- src/testing/filter.c        : apply_dead_time, apply_window
- src/trng/trng.c             : the TRNGPacket field codec
  (htobe64 / htonl at send_packet, be64toh / ntohl at run_receive_mode)

Machine integers are modelled as Nat with explicit reduction mod 2 ^ 64
(uint64_t), mod 256 (uint8_t) where the C arithmetic can wrap.
Sample lists hold u64 values; fallible paths return Option.
-/

/-- Subtraction on uint64_t: `a - b` computed in C's modular u64 arithmetic. -/
def u64sub (a b : Nat) : Nat := (a % 2 ^ 64 + 2 ^ 64 - b % 2 ^ 64) % 2 ^ 64

/-- One step of the shared bit-packing idiom
`current_byte = (current_byte << 1) | bit` on a uint8_t accumulator. -/
def bytePush (cur b : Nat) : Nat := Nat.lor (cur * 2) b % 256

/-- The MSB-first byte packer shared by `interval_compare`,
`von_neumann_extract` and `extract_lsbs` in rng-extractor.c: bits are
shifted into `cur` (at bit position `pos`), a byte is emitted whenever 8
bits are collected, and at end of input a partially filled byte is
flushed left-shifted by `8 - pos` (`current_byte <<= (8 - out_bit_pos)`). -/
def packBitsGo : List Nat → Nat → Nat → List Nat
  | [], cur, pos => if 0 < pos then [cur * 2 ^ (8 - pos) % 256] else []
  | b :: rest, cur, pos =>
      if pos + 1 = 8 then bytePush cur b :: packBitsGo rest 0 0
      else packBitsGo rest (bytePush cur b) (pos + 1)

/-- Packing starting from an empty accumulator, as all extractors do. -/
def packBits (bits : List Nat) : List Nat := packBitsGo bits 0 0

/-- The packer of `debias_bits` in vomneu.c: identical to `packBitsGo`
except that no byte is flushed at end of input ("only write complete
bytes" per the comment above `debias_bits`). -/
def packFullGo : List Nat → Nat → Nat → List Nat
  | [], _, _ => []
  | b :: rest, cur, pos =>
      if pos + 1 = 8 then bytePush cur b :: packFullGo rest 0 0
      else packFullGo rest (bytePush cur b) (pos + 1)

/-- `packFullGo` from an empty accumulator. -/
def packFull (bits : List Nat) : List Nat := packFullGo bits 0 0

/-- Bit sequence produced by the loop of `interval_compare`
(rng-extractor.c:43-52): disjoint pairs `(a, b)`, step 2, one bit
`intervals[i] > intervals[i+1]` per pair; a trailing unpaired element is
not consumed (`i < count - 1`). -/
def icBits : List Nat → List Nat
  | a :: b :: rest => (if a > b then 1 else 0) :: icBits rest
  | _ => []

/-- Bit sequence produced by the loops of `von_neumann_extract`
(rng-extractor.c:16-27) and `debias_bits` (vomneu.c:25-37): disjoint
pairs, step 2; emit `input[i]` when the pair differs, discard it when
equal; a trailing unpaired element is not consumed. -/
def vnBits : List Nat → List Nat
  | a :: b :: rest => if a ≠ b then a :: vnBits rest else vnBits rest
  | _ => []

/-- Bit sequence of `extract_lsbs` (rng-extractor.c:80-89):
`(values[i] >> bit_pos) & 1` for each value in order. -/
def lsbBits (values : List Nat) (bit_pos : Nat) : List Nat :=
  values.map fun v => v / 2 ^ bit_pos % 2

/-- Byte sequence of `xor_fold` (rng-extractor.c:66-69): sliding adjacent
pairs, one byte `(timestamps[i] ^ timestamps[i+1]) & 0xFF` per step. -/
def xfBytes : List Nat → List Nat
  | a :: b :: rest => Nat.xor a b % 256 :: xfBytes (b :: rest)
  | _ => []

/-- `interval_compare` (rng-extractor.c:38-60). For `count = 0` the C
loop bound `count - 1` underflows in size_t to `2 ^ 64 - 1`, so the first
iteration reads `intervals[0]` out of range: modelled as `none`. For
`count ≥ 1` the loop consumes disjoint pairs and packs the bits. -/
def interval_compare (intervals : List Nat) : Option (List Nat) :=
  if intervals = [] then none else some (packBits (icBits intervals))

/-- `von_neumann_extract` (rng-extractor.c:11-35). Same size_t underflow
as `interval_compare` on empty input, modelled as `none`. -/
def von_neumann_extract (input : List Nat) : Option (List Nat) :=
  if input = [] then none else some (packBits (vnBits input))

/-- `xor_fold` (rng-extractor.c:63-72). Same size_t underflow on empty
input, modelled as `none`. -/
def xor_fold (timestamps : List Nat) : Option (List Nat) :=
  if timestamps = [] then none else some (xfBytes timestamps)

/-- `extract_lsbs` (rng-extractor.c:75-97). The loop bound is `count`
itself, so empty input is safe and yields no output bytes. -/
def extract_lsbs (values : List Nat) (bit_pos : Nat) : List Nat :=
  packBits (lsbBits values bit_pos)

/-- `debias_bits` (vomneu.c:20-42): Von Neumann pairing like
`von_neumann_extract`, but only complete bytes are written (no final
flush). Same size_t underflow on empty input, modelled as `none`. -/
def debias_bits (input : List Nat) : Option (List Nat) :=
  if input = [] then none else some (packFull (vnBits input))

/-- Inner loop of `apply_dead_time` (filter.c:64-68): keep `t` iff it
exceeds the last kept sample by strictly more than `dead_time`, in u64
arithmetic (`timestamps[i] - filtered[j-1] > dead_time`). -/
def adtGo (dead_time : Nat) : Nat → List Nat → List Nat
  | _, [] => []
  | last, t :: rest =>
      if u64sub t last > dead_time then t :: adtGo dead_time t rest
      else adtGo dead_time last rest

/-- `apply_dead_time` (filter.c:49-72): empty input yields empty output;
otherwise the first sample is kept unconditionally and the loop keeps
each later sample iff it exceeds the last kept one by more than
`dead_time`. -/
def apply_dead_time (timestamps : List Nat) (dead_time : Nat) : List Nat :=
  match timestamps with
  | [] => []
  | t :: rest => t :: adtGo dead_time t rest

/-- The representative emitted when `apply_window` closes a window
(filter.c:98-113): mode 0 emits the first sample of the window, mode 1
the last, mode 2 the u64 sum of the window divided by its count; any
other mode matches no switch case and emits nothing. -/
def awEmit (mode : Nat) (win : List Nat) : List Nat :=
  if mode = 0 then [win.headD 0]
  else if mode = 1 then [win.getLastD 0]
  else if mode = 2 then [win.sum % 2 ^ 64 / win.length]
  else []

/-- Loop of `apply_window` (filter.c:92-117), with the current window's
samples carried as `win` (the C code carries `window_start` and re-reads
`timestamps[window_start .. i-1]`) and the current window floor as
`cur`. A sample whose floor exceeds `cur` closes the window; input
exhaustion closes the final window via the synthetic u64 boundary
`current_window + window_size` (which wraps mod 2 ^ 64). -/
def awGo (ws mode : Nat) : List Nat → List Nat → Nat → List Nat
  | [], win, cur => if (cur + ws) % 2 ^ 64 > cur then awEmit mode win else []
  | t :: rest, win, cur =>
      if t / ws * ws > cur then
        awEmit mode win ++ awGo ws mode rest [t] (t / ws * ws)
      else awGo ws mode rest (win ++ [t]) cur

/-- `apply_window` (filter.c:75-121): empty input or zero window size
yields empty output; otherwise the scan starts with the first sample's
window, whose floor is `timestamps[0] / window_size * window_size`. -/
def apply_window (timestamps : List Nat) (window_size mode : Nat) : List Nat :=
  match timestamps with
  | [] => []
  | t :: rest =>
      if window_size = 0 then []
      else awGo window_size mode rest [t] (t / window_size * window_size)

/-- `TRNGPacket` (trng.c:38-42): two u64 fields and one u32 field. -/
structure TRNGPacket where
  timestamp_ns : Nat
  delta_ns : Nat
  sequence : Nat
deriving DecidableEq

/-- Big-endian byte image of a `w`-byte unsigned field, as produced by
`htobe64` / `htonl` storing into the wire struct (trng.c:246-248). -/
def beBytes : Nat → Nat → List Nat
  | 0, _ => []
  | w + 1, v => v / 2 ^ (8 * w) % 256 :: beBytes w v

/-- Reassemble a big-endian byte sequence into an unsigned value, as
`be64toh` / `ntohl` do on the received fields (trng.c:383-385). -/
def fromBE (bs : List Nat) : Nat := bs.foldl (fun a b => a * 256 + b) 0

/-- Field-level encoding of `send_packet` (trng.c:245-248): the three
fields serialized big-endian in declared order, 8 + 8 + 4 = 20 bytes. -/
def encode_packet (p : TRNGPacket) : List Nat :=
  beBytes 8 p.timestamp_ns ++ beBytes 8 p.delta_ns ++ beBytes 4 p.sequence

/-- Field-level decoding of `run_receive_mode` (trng.c:378-385): a
buffer of any length other than 20 is rejected; otherwise the three
fields are read back big-endian. -/
def decode_packet (bs : List Nat) : Option TRNGPacket :=
  if bs.length = 20 then
    some ⟨fromBE (bs.take 8), fromBE ((bs.drop 8).take 8), fromBE (bs.drop 16)⟩
  else none

/-- Number of window closings triggered by a floor list `xs` scanned
from current floor `cur` (specification-side counter for `awGo`). -/
def cntF (cur : Nat) : List Nat → Nat
  | [] => 0
  | x :: xs => if x > cur then cntF x xs + 1 else cntF cur xs

/-- Final current-window floor after scanning the floor list `xs` from
`cur` (specification-side counter for `awGo`). -/
def lastF (cur : Nat) : List Nat → Nat
  | [] => cur
  | x :: xs => if x > cur then lastF x xs else lastF cur xs

/-- Specification-side window partition, for the refinement statements
about `apply_window`. Modelled from the spec: windows are anchored at
multiples of the window size, so for a sorted input the samples of one
window form a maximal run of adjacent samples sharing the same window
floor `t / window_size * window_size`. `takeFl` takes the leading run
whose floor equals `fl`. -/
def takeFl (ws fl : Nat) : List Nat → List Nat
  | [] => []
  | t :: rest => if t / ws * ws = fl then t :: takeFl ws fl rest else []

/-- Companion of `takeFl`: drops the leading run of floor `fl` and
returns the remainder of the list. -/
def dropFl (ws fl : Nat) : List Nat → List Nat
  | [] => []
  | t :: rest => if t / ws * ws = fl then dropFl ws fl rest else t :: rest

/-- Fuelled worker for `winChunks`; the fuel only bounds the recursion
depth (one unit per window) and is set to the list length, which always
suffices since the remainder shrinks at every step. -/
def winChunksGo (ws : Nat) : Nat → List Nat → List (List Nat)
  | _, [] => []
  | 0, _ :: _ => []
  | fuel + 1, t :: rest =>
      (t :: takeFl ws (t / ws * ws) rest) ::
        winChunksGo ws fuel (dropFl ws (t / ws * ws) rest)

/-- Specification-side partition of a sample list into its maximal runs
of adjacent samples with equal window floor — the windows the spec
describes. Compared against the `apply_window` loop from the source. -/
def winChunks (ws : Nat) (l : List Nat) : List (List Nat) :=
  winChunksGo ws l.length l

/-- The per-window representative the spec prescribes for each window
mode: First, Last, or the u64 Mean (sum accumulated mod 2 ^ 64, then
floor-divided by the count). Matches one switch arm of filter.c:98-113
applied to a whole window. -/
def awRep (mode : Nat) (w : List Nat) : Nat :=
  if mode = 0 then w.headD 0
  else if mode = 1 then w.getLastD 0
  else w.sum % 2 ^ 64 / w.length

theorem bytePush_zero (cur : Nat) : bytePush cur 0 = cur * 2 % 256 := by
  simp [bytePush, Nat.lor]

theorem packBitsGo_zeros :
    ∀ (k cur pos : Nat), pos < 8 → pos + k = 8 →
      packBitsGo (List.replicate k 0) cur pos = [cur * 2 ^ k % 256] := by
  intro k
  induction k with
  | zero => intro cur pos h1 h2; omega
  | succ k ih =>
    intro cur pos h1 h2
    rw [List.replicate_succ]
    show (if pos + 1 = 8 then bytePush cur 0 :: packBitsGo (List.replicate k 0) 0 0
          else packBitsGo (List.replicate k 0) (bytePush cur 0) (pos + 1)) = _
    by_cases h8 : pos + 1 = 8
    · have hk : k = 0 := by omega
      subst hk
      rw [if_pos h8, bytePush_zero]
      show [cur * 2 % 256] = [cur * 2 ^ 1 % 256]
      norm_num
    · rw [if_neg h8, ih (bytePush cur 0) (pos + 1) (by omega) (by omega), bytePush_zero]
      have : cur * 2 % 256 * 2 ^ k % 256 = cur * 2 ^ (k + 1) % 256 := by
        rw [Nat.mod_mul_mod, pow_succ]
        congr 1
        ring
      rw [this]

theorem packBitsGo_pad (bs : List Nat) :
    ∀ (cur pos : Nat), pos < 8 → (bs.length + pos) % 8 ≠ 0 →
      packBitsGo (bs ++ List.replicate (8 - (bs.length + pos) % 8) 0) cur pos =
        packBitsGo bs cur pos := by
  induction bs with
  | nil =>
    intro cur pos h1 h2
    simp only [List.nil_append, List.length_nil, Nat.zero_add] at *
    rw [Nat.mod_eq_of_lt h1] at h2 ⊢
    rw [packBitsGo_zeros (8 - pos) cur pos h1 (by omega)]
    show _ = if 0 < pos then [cur * 2 ^ (8 - pos) % 256] else []
    rw [if_pos (by omega)]
  | cons b rest ih =>
    intro cur pos h1 h2
    rw [List.cons_append]
    show (if pos + 1 = 8 then
            bytePush cur b :: packBitsGo (rest ++ List.replicate (8 - ((b :: rest).length + pos) % 8) 0) 0 0
          else packBitsGo (rest ++ List.replicate (8 - ((b :: rest).length + pos) % 8) 0) (bytePush cur b) (pos + 1)) =
         (if pos + 1 = 8 then bytePush cur b :: packBitsGo rest 0 0
          else packBitsGo rest (bytePush cur b) (pos + 1))
    by_cases h8 : pos + 1 = 8
    · rw [if_pos h8, if_pos h8]
      have hm : ((b :: rest).length + pos) % 8 = (rest.length + 0) % 8 := by
        simp only [List.length_cons]; omega
      rw [hm, ih 0 0 (by omega) (by rw [← hm]; exact h2)]
    · rw [if_neg h8, if_neg h8]
      have hm : ((b :: rest).length + pos) % 8 = (rest.length + (pos + 1)) % 8 := by
        simp only [List.length_cons]; omega
      rw [hm, ih (bytePush cur b) (pos + 1) (by omega) (by rw [← hm]; exact h2)]

theorem packBitsGo_length (bs : List Nat) :
    ∀ (cur pos : Nat), pos < 8 →
      (packBitsGo bs cur pos).length = (bs.length + pos + 7) / 8 := by
  induction bs with
  | nil =>
    intro cur pos h1
    show (if 0 < pos then [cur * 2 ^ (8 - pos) % 256] else []).length = _
    by_cases hp : 0 < pos
    · rw [if_pos hp]; simp only [List.length_cons, List.length_nil, List.length_nil]; omega
    · rw [if_neg hp]; simp only [List.length_nil]; omega
  | cons b rest ih =>
    intro cur pos h1
    show (if pos + 1 = 8 then bytePush cur b :: packBitsGo rest 0 0
          else packBitsGo rest (bytePush cur b) (pos + 1)).length = _
    by_cases h8 : pos + 1 = 8
    · rw [if_pos h8]
      simp only [List.length_cons, ih 0 0 (by omega)]
      omega
    · rw [if_neg h8, ih (bytePush cur b) (pos + 1) (by omega)]
      simp only [List.length_cons]
      omega

theorem packFullGo_length (bs : List Nat) :
    ∀ (cur pos : Nat), pos < 8 →
      (packFullGo bs cur pos).length = (bs.length + pos) / 8 := by
  induction bs with
  | nil => intro cur pos h1; show ([] : List Nat).length = _; simp; omega
  | cons b rest ih =>
    intro cur pos h1
    show (if pos + 1 = 8 then bytePush cur b :: packFullGo rest 0 0
          else packFullGo rest (bytePush cur b) (pos + 1)).length = _
    by_cases h8 : pos + 1 = 8
    · rw [if_pos h8]
      simp only [List.length_cons, ih 0 0 (by omega)]
      omega
    · rw [if_neg h8, ih (bytePush cur b) (pos + 1) (by omega)]
      simp only [List.length_cons]
      omega

theorem packBits_pad (bs : List Nat) (h : bs.length % 8 ≠ 0) :
    packBits bs = packBits (bs ++ List.replicate (8 - bs.length % 8) 0) := by
  have hp := packBitsGo_pad bs 0 0 (by norm_num) (by simpa using h)
  simp only [Nat.add_zero] at hp
  exact hp.symm

theorem packBits_length_of_rem (bs : List Nat) (h : bs.length % 8 ≠ 0) :
    (packBits bs).length = bs.length / 8 + 1 := by
  rw [packBits, packBitsGo_length bs 0 0 (by norm_num)]
  omega

theorem packFull_length (bs : List Nat) : (packFull bs).length = bs.length / 8 := by
  rw [packFull, packFullGo_length bs 0 0 (by norm_num)]
  omega

theorem icBits_append_even (x : Nat) :
    ∀ l : List Nat, l.length % 2 = 0 → icBits (l ++ [x]) = icBits l
  | [], _ => rfl
  | [a], h => by simp at h
  | a :: b :: rest, h => by
    have ih := icBits_append_even x rest (by simp only [List.length_cons] at h; omega)
    show (if a > b then 1 else 0) :: icBits (rest ++ [x]) = (if a > b then 1 else 0) :: icBits rest
    rw [ih]

theorem vnBits_append_even (x : Nat) :
    ∀ l : List Nat, l.length % 2 = 0 → vnBits (l ++ [x]) = vnBits l
  | [], _ => rfl
  | [a], h => by simp at h
  | a :: b :: rest, h => by
    have ih := vnBits_append_even x rest (by simp only [List.length_cons] at h; omega)
    show (if a ≠ b then a :: vnBits (rest ++ [x]) else vnBits (rest ++ [x])) =
         (if a ≠ b then a :: vnBits rest else vnBits rest)
    rw [ih]

/-- Claim C2 (amended): for the rng-extractor.c extraction runs
(IntervalCompare, VonNeumann, LsbExtract) whose emitted bit count is not
a multiple of 8, the final partially filled byte is always emitted,
left-shifted so the collected bits occupy the high-order positions and
the low-order bits are zero (the output equals the bits packed after
zero-padding to a full byte, and has one byte beyond the full bytes);
the vomneu.c `debias_bits` variant instead writes only complete bytes,
discarding the trailing partially filled byte. -/
theorem C2_trailing_byte :
    (∀ l : List Nat, l ≠ [] → (icBits l).length % 8 ≠ 0 →
      interval_compare l =
          some (packBits (icBits l ++ List.replicate (8 - (icBits l).length % 8) 0))
        ∧ (packBits (icBits l)).length = (icBits l).length / 8 + 1)
    ∧ (∀ l : List Nat, l ≠ [] → (vnBits l).length % 8 ≠ 0 →
      von_neumann_extract l =
          some (packBits (vnBits l ++ List.replicate (8 - (vnBits l).length % 8) 0))
        ∧ (packBits (vnBits l)).length = (vnBits l).length / 8 + 1)
    ∧ (∀ (l : List Nat) (p : Nat), (lsbBits l p).length % 8 ≠ 0 →
      extract_lsbs l p =
          packBits (lsbBits l p ++ List.replicate (8 - (lsbBits l p).length % 8) 0)
        ∧ (extract_lsbs l p).length = (lsbBits l p).length / 8 + 1)
    ∧ (∀ l : List Nat, l ≠ [] →
      debias_bits l = some (packFull (vnBits l))
        ∧ (packFull (vnBits l)).length = (vnBits l).length / 8) := by
  refine ⟨fun l hne h => ⟨?_, packBits_length_of_rem _ h⟩,
    fun l hne h => ⟨?_, packBits_length_of_rem _ h⟩,
    fun l p h => ⟨?_, ?_⟩,
    fun l hne => ⟨by simp [debias_bits, hne], packFull_length _⟩⟩
  · simp [interval_compare, hne, ← packBits_pad _ h]
  · simp [von_neumann_extract, hne, ← packBits_pad _ h]
  · simp [extract_lsbs, ← packBits_pad _ h]
  · rw [extract_lsbs, packBits_length_of_rem _ h]

theorem C2_trailing_byte_w :
    interval_compare [10, 5, 3, 8, 7, 7] =
        some (packBits (icBits [10, 5, 3, 8, 7, 7] ++
          List.replicate (8 - (icBits [10, 5, 3, 8, 7, 7]).length % 8) 0))
      ∧ von_neumann_extract [0, 1] =
        some (packBits (vnBits [0, 1] ++ List.replicate (8 - (vnBits [0, 1]).length % 8) 0))
      ∧ extract_lsbs [1] 0 =
        packBits (lsbBits [1] 0 ++ List.replicate (8 - (lsbBits [1] 0).length % 8) 0)
      ∧ debias_bits [0, 1] = some (packFull (vnBits [0, 1])) :=
  ⟨(C2_trailing_byte.1 [10, 5, 3, 8, 7, 7] (by decide) (by decide)).1,
   (C2_trailing_byte.2.1 [0, 1] (by decide) (by decide)).1,
   (C2_trailing_byte.2.2.1 [1] 0 (by decide)).1,
   (C2_trailing_byte.2.2.2 [0, 1] (by decide)).1⟩

/-- Claim C2 counterexample: a VonNeumann extraction run of vomneu.c's
`debias_bits` that emits 1 bit (not a multiple of 8) produces no output
byte at all — the partially filled final byte is dropped, not emitted —
while rng-extractor.c's `von_neumann_extract` emits it as 0x00. -/
theorem C2_debias_trailing_byte_cex :
    debias_bits [0, 1] = some [] ∧ (vnBits [0, 1]).length % 8 ≠ 0
      ∧ von_neumann_extract [0, 1] = some [0] := by
  decide

/-- Claim C3: the spec promises that an empty input to any extractor
yields an empty bitstream and never an error; in the code the loop bound
`count - 1` underflows in size_t for `interval_compare`,
`von_neumann_extract` (and vomneu.c's `debias_bits`) and `xor_fold`, so
they read out of range on empty input (modelled `none`); only
`extract_lsbs` (and the filters) actually return empty output. -/
theorem C3_empty_input :
    interval_compare [] = none ∧ von_neumann_extract [] = none ∧ xor_fold [] = none
      ∧ debias_bits [] = none ∧ extract_lsbs [] 0 = []
      ∧ apply_dead_time [] 0 = [] ∧ apply_window [] 1 0 = [] := by
  decide

/-- Claim C7: `interval_compare` consumes disjoint pairs `(a, b)`,
advancing by 2, emitting bit 1 iff `a > b` (ties give 0); on input
`[10, 5, 3, 8, 7, 7]` the bits are `[1, 0, 0]`, packed MSB-first into
the single byte 0x80. -/
theorem C7_interval_compare_rule :
    (∀ (a b : Nat) (rest : List Nat),
        icBits (a :: b :: rest) = (if a > b then 1 else 0) :: icBits rest)
      ∧ interval_compare [10, 5, 3, 8, 7, 7] = some [128] :=
  ⟨fun _ _ _ => rfl, by decide⟩

/-- Claim C10 (amended): for the pairwise extractors, the trailing
unpaired sample of an odd-length input is never consumed: the emitted
bit sequences agree with those of the input with its final sample
removed, and for odd length at least 3 the whole outputs agree; at odd
length 1 the truncated input is empty and triggers the empty-input
out-of-range defect instead of returning the same (empty) output. -/
theorem C10_odd_length (l : List Nat) (x : Nat) (h : l.length % 2 = 0) :
    icBits (l ++ [x]) = icBits l ∧ vnBits (l ++ [x]) = vnBits l
      ∧ (l ≠ [] →
          interval_compare (l ++ [x]) = interval_compare l
            ∧ von_neumann_extract (l ++ [x]) = von_neumann_extract l) := by
  have h1 : l ++ [x] ≠ [] := by simp
  refine ⟨icBits_append_even x l h, vnBits_append_even x l h, fun hne => ⟨?_, ?_⟩⟩
  · simp [interval_compare, h1, hne, icBits_append_even x l h]
  · simp [von_neumann_extract, h1, hne, vnBits_append_even x l h]

theorem C10_odd_length_w :
    icBits ([10, 5] ++ [7]) = icBits [10, 5]
      ∧ interval_compare ([10, 5] ++ [7]) = interval_compare [10, 5]
      ∧ von_neumann_extract ([10, 5] ++ [7]) = von_neumann_extract [10, 5] :=
  ⟨(C10_odd_length [10, 5] 7 (by decide)).1,
   ((C10_odd_length [10, 5] 7 (by decide)).2.2 (by decide)).1,
   ((C10_odd_length [10, 5] 7 (by decide)).2.2 (by decide)).2⟩

/-- Claim C10 counterexample: at odd length 1 the output is not the same
as on the input with the final sample removed — the length-0 run hits
the size_t underflow and reads out of range (`none`), while the
length-1 run returns an empty byte list. -/
theorem C10_odd_length_cex :
    interval_compare [5] = some [] ∧ interval_compare [] = none
      ∧ von_neumann_extract [1] = some [] ∧ von_neumann_extract [] = none := by
  decide

theorem adtGo_sublist (d : Nat) :
    ∀ (rest : List Nat) (last : Nat), (adtGo d last rest).Sublist rest := by
  intro rest
  induction rest with
  | nil => intro last; exact List.Sublist.refl []
  | cons t rest ih =>
    intro last
    show (if u64sub t last > d then t :: adtGo d t rest else adtGo d last rest).Sublist (t :: rest)
    by_cases hc : u64sub t last > d
    · rw [if_pos hc]; exact List.Sublist.cons₂ t (ih t)
    · rw [if_neg hc]; exact List.Sublist.cons t (ih last)

theorem adtGo_chain (d : Nat) :
    ∀ (rest : List Nat) (last : Nat),
      List.Chain' (fun a b => u64sub b a > d) (last :: adtGo d last rest) := by
  intro rest
  induction rest with
  | nil => intro last; exact List.chain'_singleton last
  | cons t rest ih =>
    intro last
    show List.Chain' _ (last :: if u64sub t last > d then t :: adtGo d t rest else adtGo d last rest)
    by_cases hc : u64sub t last > d
    · rw [if_pos hc]
      exact List.chain'_cons.mpr ⟨hc, ih t⟩
    · rw [if_neg hc]
      exact ih last

theorem adtGo_of_chain (d : Nat) :
    ∀ (ys : List Nat) (last : Nat),
      List.Chain' (fun a b => u64sub b a > d) (last :: ys) → adtGo d last ys = ys := by
  intro ys
  induction ys with
  | nil => intro last _; rfl
  | cons y ys ih =>
    intro last hch
    have h1 := (List.chain'_cons.mp hch).1
    have h2 := (List.chain'_cons.mp hch).2
    show (if u64sub y last > d then y :: adtGo d y ys else adtGo d last ys) = y :: ys
    rw [if_pos h1, ih y h2]

theorem u64sub_of_le (a b : Nat) (hab : a ≤ b) (hb : b < 2 ^ 64) : u64sub b a = b - a := by
  have h64 : (2 : Nat) ^ 64 = 18446744073709551616 := by norm_num
  unfold u64sub
  rw [h64] at *
  omega

theorem chain_u64_to_sub (d : Nat) :
    ∀ l : List Nat, List.Pairwise (· ≤ ·) l → (∀ x ∈ l, x < 2 ^ 64) →
      List.Chain' (fun a b => u64sub b a > d) l → List.Chain' (fun a b => b - a > d) l := by
  intro l
  induction l with
  | nil => intro _ _ _; exact List.chain'_nil
  | cons a l ih =>
    intro hp hb hch
    cases l with
    | nil => exact List.chain'_singleton a
    | cons b l' =>
      have hab : a ≤ b := (List.pairwise_cons.mp hp).1 b (by simp)
      have hblt : b < 2 ^ 64 := hb b (by simp)
      have h1 := (List.chain'_cons.mp hch).1
      have h2 := (List.chain'_cons.mp hch).2
      refine List.chain'_cons.mpr ⟨?_, ?_⟩
      · rw [u64sub_of_le a b hab hblt] at h1; exact h1
      · exact ih (List.pairwise_cons.mp hp).2 (fun x hx => hb x (List.mem_cons_of_mem a hx)) h2

/-- Claim C4: for every non-empty list of non-decreasing u64 timestamps
and every dead time, `apply_dead_time` keeps the first sample
unconditionally, its output is an order-preserving subsequence of the
input, consecutive kept samples differ by strictly more than the dead
time, and empty input yields empty output. -/
theorem C4_dead_time (ts : List Nat) (d : Nat) (hne : ts ≠ [])
    (hsort : List.Pairwise (· ≤ ·) ts) (hbd : ∀ x ∈ ts, x < 2 ^ 64) :
    (apply_dead_time ts d).head? = ts.head?
      ∧ (apply_dead_time ts d).Sublist ts
      ∧ List.Chain' (fun a b => b - a > d) (apply_dead_time ts d)
      ∧ apply_dead_time [] d = [] := by
  match ts with
  | [] => exact absurd rfl hne
  | t :: rest =>
    have hsub : (apply_dead_time (t :: rest) d).Sublist (t :: rest) :=
      List.Sublist.cons₂ t (adtGo_sublist d rest t)
    refine ⟨rfl, hsub, ?_, rfl⟩
    exact chain_u64_to_sub d _ (List.Pairwise.sublist hsub hsort)
      (fun x hx => hbd x (hsub.subset hx)) (adtGo_chain d rest t)

theorem C4_dead_time_w :
    (apply_dead_time [0, 50, 150, 151, 400] 100).head? = ([0, 50, 150, 151, 400] : List Nat).head?
      ∧ (apply_dead_time [0, 50, 150, 151, 400] 100).Sublist [0, 50, 150, 151, 400]
      ∧ List.Chain' (fun a b => b - a > 100) (apply_dead_time [0, 50, 150, 151, 400] 100)
      ∧ apply_dead_time [] 100 = [] :=
  C4_dead_time [0, 50, 150, 151, 400] 100 (by decide) (by decide) (by decide)

/-- Claim C9: dead-time filtering is idempotent — re-applying
`apply_dead_time` with the same threshold to an already-filtered list
returns it unchanged. -/
theorem C9_dead_time_idempotent (ts : List Nat) (d : Nat) :
    apply_dead_time (apply_dead_time ts d) d = apply_dead_time ts d := by
  match ts with
  | [] => rfl
  | t :: rest =>
    show t :: adtGo d t (adtGo d t rest) = t :: adtGo d t rest
    rw [adtGo_of_chain d (adtGo d t rest) t (adtGo_chain d rest t)]

theorem awEmit_length (mode : Nat) (win : List Nat) (h : mode < 3) :
    (awEmit mode win).length = 1 := by
  rcases mode with _ | _ | _ | m
  · simp [awEmit]
  · simp [awEmit]
  · simp [awEmit]
  · omega

theorem awGo_length (ws mode : Nat) (hws : 0 < ws) (hmode : mode < 3) :
    ∀ (rest win : List Nat) (cur : Nat),
      lastF cur (rest.map fun t => t / ws * ws) + ws < 2 ^ 64 →
      (awGo ws mode rest win cur).length = cntF cur (rest.map fun t => t / ws * ws) + 1 := by
  intro rest
  induction rest with
  | nil =>
    intro win cur hov
    simp only [List.map_nil] at hov ⊢
    have hov' : cur + ws < 2 ^ 64 := hov
    have hcond : (cur + ws) % 2 ^ 64 > cur := by
      rw [Nat.mod_eq_of_lt hov']; omega
    show (if (cur + ws) % 2 ^ 64 > cur then awEmit mode win else []).length = cntF cur [] + 1
    rw [if_pos hcond, awEmit_length mode win hmode]
    rfl
  | cons t rest ih =>
    intro win cur hov
    show (if t / ws * ws > cur then awEmit mode win ++ awGo ws mode rest [t] (t / ws * ws)
          else awGo ws mode rest (win ++ [t]) cur).length = _
    by_cases hc : t / ws * ws > cur
    · rw [if_pos hc, List.length_append, awEmit_length mode win hmode]
      have hov' : lastF (t / ws * ws) (rest.map fun u => u / ws * ws) + ws < 2 ^ 64 := by
        simp only [List.map_cons, lastF, if_pos hc] at hov
        exact hov
      rw [ih [t] (t / ws * ws) hov']
      simp only [List.map_cons, cntF, if_pos hc]
      omega
    · rw [if_neg hc]
      have hov' : lastF cur (rest.map fun u => u / ws * ws) + ws < 2 ^ 64 := by
        simp only [List.map_cons, lastF, if_neg hc] at hov
        exact hov
      rw [ih (win ++ [t]) cur hov']
      simp only [List.map_cons, cntF, if_neg hc]

theorem toFinset_card_cntF :
    ∀ (xs : List Nat) (cur : Nat), List.Pairwise (· ≤ ·) (cur :: xs) →
      (cur :: xs).toFinset.card = cntF cur xs + 1 := by
  intro xs
  induction xs with
  | nil => intro cur _; simp [cntF]
  | cons x xs ih =>
    intro cur hp
    have hcx : cur ≤ x := (List.pairwise_cons.mp hp).1 x (by simp)
    have hpx : List.Pairwise (· ≤ ·) (x :: xs) := (List.pairwise_cons.mp hp).2
    by_cases hx : x > cur
    · have hnot : cur ∉ (x :: xs).toFinset := by
        rw [List.mem_toFinset]
        intro hmem
        rcases List.mem_cons.mp hmem with h | h
        · omega
        · have := (List.pairwise_cons.mp hpx).1 cur h
          omega
      rw [List.toFinset_cons, Finset.card_insert_of_not_mem hnot, ih x hpx]
      simp only [cntF, if_pos hx]
    · have hxc : x = cur := by omega
      subst hxc
      rw [List.toFinset_cons, List.toFinset_cons, Finset.insert_idem, ← List.toFinset_cons,
        ih x hpx]
      simp only [cntF, if_neg hx]

theorem lastF_mem : ∀ (xs : List Nat) (cur : Nat), lastF cur xs ∈ cur :: xs := by
  intro xs
  induction xs with
  | nil => intro cur; simp [lastF]
  | cons x xs ih =>
    intro cur
    show (if x > cur then lastF x xs else lastF cur xs) ∈ cur :: x :: xs
    by_cases hx : x > cur
    · rw [if_pos hx]
      rcases List.mem_cons.mp (ih x) with h | h
      · simp [h]
      · simp [h]
    · rw [if_neg hx]
      rcases List.mem_cons.mp (ih cur) with h | h
      · simp [h]
      · simp [h]

theorem floors_pairwise (ts : List Nat) (ws : Nat) (hsort : List.Pairwise (· ≤ ·) ts) :
    List.Pairwise (· ≤ ·) (ts.map fun t => t / ws * ws) :=
  List.Pairwise.map _ (fun _ _ hab => Nat.mul_le_mul_right ws (Nat.div_le_div_right hab)) hsort

theorem takeFl_append_dropFl (ws fl : Nat) :
    ∀ l : List Nat, takeFl ws fl l ++ dropFl ws fl l = l := by
  intro l
  induction l with
  | nil => rfl
  | cons a l ih =>
    show (if a / ws * ws = fl then a :: takeFl ws fl l else []) ++
         (if a / ws * ws = fl then dropFl ws fl l else a :: l) = a :: l
    by_cases hc : a / ws * ws = fl
    · rw [if_pos hc, if_pos hc]
      show a :: (takeFl ws fl l ++ dropFl ws fl l) = a :: l
      rw [ih]
    · rw [if_neg hc, if_neg hc]
      rfl

theorem dropFl_length_le (ws fl : Nat) :
    ∀ l : List Nat, (dropFl ws fl l).length ≤ l.length := by
  intro l
  induction l with
  | nil => exact Nat.le_refl 0
  | cons a l ih =>
    show (if a / ws * ws = fl then dropFl ws fl l else a :: l).length ≤ l.length + 1
    by_cases hc : a / ws * ws = fl
    · rw [if_pos hc]; omega
    · rw [if_neg hc]; simp

theorem takeFl_all (ws fl : Nat) :
    ∀ l : List Nat, (∀ a ∈ l, a / ws * ws = fl) → takeFl ws fl l = l := by
  intro l
  induction l with
  | nil => intro _; rfl
  | cons a l ih =>
    intro h
    show (if a / ws * ws = fl then a :: takeFl ws fl l else []) = a :: l
    rw [if_pos (h a (by simp)), ih (fun b hb => h b (by simp [hb]))]

theorem dropFl_all (ws fl : Nat) :
    ∀ l : List Nat, (∀ a ∈ l, a / ws * ws = fl) → dropFl ws fl l = [] := by
  intro l
  induction l with
  | nil => intro _; rfl
  | cons a l ih =>
    intro h
    show (if a / ws * ws = fl then dropFl ws fl l else a :: l) = []
    rw [if_pos (h a (by simp)), ih (fun b hb => h b (by simp [hb]))]

theorem takeFl_append_all (ws fl : Nat) (l₂ : List Nat) :
    ∀ l₁ : List Nat, (∀ a ∈ l₁, a / ws * ws = fl) →
      takeFl ws fl (l₁ ++ l₂) = l₁ ++ takeFl ws fl l₂ := by
  intro l₁
  induction l₁ with
  | nil => intro _; rfl
  | cons a l₁ ih =>
    intro h
    show (if a / ws * ws = fl then a :: takeFl ws fl (l₁ ++ l₂) else []) = a :: (l₁ ++ takeFl ws fl l₂)
    rw [if_pos (h a (by simp)), ih (fun b hb => h b (by simp [hb]))]

theorem dropFl_append_all (ws fl : Nat) (l₂ : List Nat) :
    ∀ l₁ : List Nat, (∀ a ∈ l₁, a / ws * ws = fl) →
      dropFl ws fl (l₁ ++ l₂) = dropFl ws fl l₂ := by
  intro l₁
  induction l₁ with
  | nil => intro _; rfl
  | cons a l₁ ih =>
    intro h
    show (if a / ws * ws = fl then dropFl ws fl (l₁ ++ l₂) else a :: (l₁ ++ l₂)) = dropFl ws fl l₂
    rw [if_pos (h a (by simp)), ih (fun b hb => h b (by simp [hb]))]

theorem takeFl_mem (ws fl : Nat) :
    ∀ l : List Nat, ∀ a ∈ takeFl ws fl l, a ∈ l ∧ a / ws * ws = fl := by
  intro l
  induction l with
  | nil => intro a ha; exact absurd ha (List.not_mem_nil a)
  | cons b l ih =>
    intro a ha
    by_cases hc : b / ws * ws = fl
    · rw [show takeFl ws fl (b :: l) = b :: takeFl ws fl l from by
        show (if b / ws * ws = fl then b :: takeFl ws fl l else []) = _
        rw [if_pos hc]] at ha
      rcases List.mem_cons.mp ha with h | h
      · subst h
        exact ⟨by simp, hc⟩
      · exact ⟨List.mem_cons_of_mem b (ih a h).1, (ih a h).2⟩
    · rw [show takeFl ws fl (b :: l) = [] from by
        show (if b / ws * ws = fl then b :: takeFl ws fl l else []) = _
        rw [if_neg hc]] at ha
      exact absurd ha (List.not_mem_nil a)

theorem dropFl_head_ne (ws fl : Nat) :
    ∀ (l : List Nat) (t : Nat) (l' : List Nat),
      dropFl ws fl l = t :: l' → t / ws * ws ≠ fl := by
  intro l
  induction l with
  | nil => intro t l' h; exact absurd h (by simp [dropFl])
  | cons a l ih =>
    intro t l' h
    by_cases hc : a / ws * ws = fl
    · rw [show dropFl ws fl (a :: l) = dropFl ws fl l from by
        show (if a / ws * ws = fl then dropFl ws fl l else a :: l) = _
        rw [if_pos hc]] at h
      exact ih t l' h
    · rw [show dropFl ws fl (a :: l) = a :: l from by
        show (if a / ws * ws = fl then dropFl ws fl l else a :: l) = _
        rw [if_neg hc]] at h
      rw [← (List.cons.injEq a l t l').mp h |>.1]
      exact hc

theorem winChunksGo_nil (ws : Nat) : ∀ fuel : Nat, winChunksGo ws fuel [] = [] := by
  intro fuel
  cases fuel with
  | zero => rfl
  | succ _ => rfl

theorem winChunksGo_fuel (ws : Nat) :
    ∀ (fuel fuel' : Nat) (l : List Nat), l.length ≤ fuel → l.length ≤ fuel' →
      winChunksGo ws fuel l = winChunksGo ws fuel' l := by
  intro fuel
  induction fuel with
  | zero =>
    intro fuel' l h _
    cases l with
    | nil => rw [winChunksGo_nil, winChunksGo_nil]
    | cons t rest => simp at h
  | succ fuel ih =>
    intro fuel' l h h'
    cases l with
    | nil => rw [winChunksGo_nil, winChunksGo_nil]
    | cons t rest =>
      cases fuel' with
      | zero => simp at h'
      | succ fuel'' =>
        show (t :: takeFl ws (t / ws * ws) rest) ::
              winChunksGo ws fuel (dropFl ws (t / ws * ws) rest) =
            (t :: takeFl ws (t / ws * ws) rest) ::
              winChunksGo ws fuel'' (dropFl ws (t / ws * ws) rest)
        have hb := dropFl_length_le ws (t / ws * ws) rest
        rw [ih fuel'' (dropFl ws (t / ws * ws) rest)
          (by simp only [List.length_cons] at h; omega)
          (by simp only [List.length_cons] at h'; omega)]

theorem winChunks_cons (ws t : Nat) (rest : List Nat) :
    winChunks ws (t :: rest) =
      (t :: takeFl ws (t / ws * ws) rest) :: winChunks ws (dropFl ws (t / ws * ws) rest) := by
  show (t :: takeFl ws (t / ws * ws) rest) ::
      winChunksGo ws rest.length (dropFl ws (t / ws * ws) rest) = _
  rw [winChunksGo_fuel ws rest.length (dropFl ws (t / ws * ws) rest).length
    (dropFl ws (t / ws * ws) rest) (dropFl_length_le ws (t / ws * ws) rest) (Nat.le_refl _)]
  rfl

theorem winChunks_join (ws : Nat) (l : List Nat) : (winChunks ws l).flatten = l := by
  have H : ∀ (n : Nat) (l : List Nat), l.length ≤ n → (winChunks ws l).flatten = l := by
    intro n
    induction n with
    | zero =>
      intro l hl
      cases l with
      | nil => rfl
      | cons t rest => simp at hl
    | succ n ih =>
      intro l hl
      cases l with
      | nil => rfl
      | cons t rest =>
        rw [winChunks_cons, List.flatten_cons,
          ih (dropFl ws (t / ws * ws) rest)
            (by have := dropFl_length_le ws (t / ws * ws) rest
                simp only [List.length_cons] at hl
                omega)]
        show t :: (takeFl ws (t / ws * ws) rest ++ dropFl ws (t / ws * ws) rest) = t :: rest
        rw [takeFl_append_dropFl]
  exact H l.length l (Nat.le_refl _)

theorem winChunks_mem (ws : Nat) (l : List Nat) :
    ∀ w ∈ winChunks ws l, w ≠ [] ∧ ∀ a ∈ w, ∀ b ∈ w, a / ws * ws = b / ws * ws := by
  have H : ∀ (n : Nat) (l : List Nat), l.length ≤ n → ∀ w ∈ winChunks ws l,
      w ≠ [] ∧ ∀ a ∈ w, ∀ b ∈ w, a / ws * ws = b / ws * ws := by
    intro n
    induction n with
    | zero =>
      intro l hl w hw
      cases l with
      | nil => exact absurd hw (List.not_mem_nil w)
      | cons t rest => simp at hl
    | succ n ih =>
      intro l hl w hw
      cases l with
      | nil => exact absurd hw (List.not_mem_nil w)
      | cons t rest =>
        rw [winChunks_cons] at hw
        rcases List.mem_cons.mp hw with h | h
        · subst h
          refine ⟨by simp, ?_⟩
          have hf : ∀ a ∈ t :: takeFl ws (t / ws * ws) rest, a / ws * ws = t / ws * ws := by
            intro a ha
            rcases List.mem_cons.mp ha with h' | h'
            · rw [h']
            · exact (takeFl_mem ws (t / ws * ws) rest a h').2
          intro a ha b hb
          rw [hf a ha, hf b hb]
        · exact ih (dropFl ws (t / ws * ws) rest)
            (by have := dropFl_length_le ws (t / ws * ws) rest
                simp only [List.length_cons] at hl
                omega) w h
  exact H l.length l (Nat.le_refl _)

theorem winChunks_chain (ws : Nat) (l : List Nat) :
    List.Chain' (fun w1 w2 => w1.headD 0 / ws * ws ≠ w2.headD 0 / ws * ws) (winChunks ws l) := by
  have H : ∀ (n : Nat) (l : List Nat), l.length ≤ n →
      List.Chain' (fun w1 w2 => w1.headD 0 / ws * ws ≠ w2.headD 0 / ws * ws) (winChunks ws l) := by
    intro n
    induction n with
    | zero =>
      intro l hl
      cases l with
      | nil => exact List.chain'_nil
      | cons t rest => simp at hl
    | succ n ih =>
      intro l hl
      cases l with
      | nil => exact List.chain'_nil
      | cons t rest =>
        rw [winChunks_cons]
        apply List.chain'_cons'.mpr
        refine ⟨?_, ih (dropFl ws (t / ws * ws) rest)
          (by have := dropFl_length_le ws (t / ws * ws) rest
              simp only [List.length_cons] at hl
              omega)⟩
        intro y hy
        rcases hdrop : dropFl ws (t / ws * ws) rest with _ | ⟨t', l''⟩
        · rw [hdrop] at hy
          rw [show winChunks ws ([] : List Nat) = [] from rfl] at hy
          simp at hy
        · rw [hdrop, winChunks_cons] at hy
          simp only [List.head?_cons, Option.mem_def, Option.some.injEq] at hy
          rw [← hy]
          show t / ws * ws ≠ t' / ws * ws
          exact fun hEq => dropFl_head_ne ws (t / ws * ws) rest t' l'' hdrop hEq.symm
  exact H l.length l (Nat.le_refl _)

theorem awEmit_eq_rep (mode : Nat) (w : List Nat) (h : mode < 3) :
    awEmit mode w = [awRep mode w] := by
  rcases mode with _ | _ | _ | m
  · rfl
  · rfl
  · rfl
  · omega

theorem floor_mono (ws a b : Nat) (h : a ≤ b) : a / ws * ws ≤ b / ws * ws :=
  Nat.mul_le_mul_right ws (Nat.div_le_div_right h)

theorem awGo_eq_chunks (ws mode : Nat) (hws : 0 < ws) (hmode : mode < 3) :
    ∀ (rest win : List Nat) (cur : Nat), win ≠ [] →
      (∀ a ∈ win, a / ws * ws = cur) →
      List.Pairwise (· ≤ ·) (win ++ rest) →
      (∀ a ∈ win ++ rest, a / ws * ws + ws < 2 ^ 64) →
      awGo ws mode rest win cur = (winChunks ws (win ++ rest)).map (awRep mode) := by
  intro rest
  induction rest with
  | nil =>
    intro win cur hwin hfl _ hov
    cases win with
    | nil => exact absurd rfl hwin
    | cons w0 w' =>
      have hcur : w0 / ws * ws = cur := hfl w0 (by simp)
      have hov0 : cur + ws < 2 ^ 64 := by
        have h := hov w0 (by simp)
        rw [hcur] at h
        exact h
      have hall : ∀ a ∈ w', a / ws * ws = cur := fun a ha => hfl a (by simp [ha])
      show (if (cur + ws) % 2 ^ 64 > cur then awEmit mode (w0 :: w') else []) = _
      rw [if_pos (by rw [Nat.mod_eq_of_lt hov0]; omega), awEmit_eq_rep mode _ hmode,
        List.append_nil, winChunks_cons, hcur, takeFl_all ws cur w' hall,
        dropFl_all ws cur w' hall]
      rfl
  | cons t rest' ih =>
    intro win cur hwin hfl hsort hov
    cases win with
    | nil => exact absurd rfl hwin
    | cons w0 w' =>
      have hcur : w0 / ws * ws = cur := hfl w0 (by simp)
      have hall : ∀ a ∈ w', a / ws * ws = cur := fun a ha => hfl a (by simp [ha])
      show (if t / ws * ws > cur then
              awEmit mode (w0 :: w') ++ awGo ws mode rest' [t] (t / ws * ws)
            else awGo ws mode rest' ((w0 :: w') ++ [t]) cur) = _
      by_cases hc : t / ws * ws > cur
      · rw [if_pos hc, awEmit_eq_rep mode _ hmode,
          ih [t] (t / ws * ws) (by simp)
            (fun a ha => by rw [List.mem_singleton.mp ha])
            ((List.pairwise_append.mp hsort).2.1)
            (fun a ha => hov a (List.mem_append_right _ ha))]
        show awRep mode (w0 :: w') :: (winChunks ws (t :: rest')).map (awRep mode) =
          (winChunks ws (w0 :: (w' ++ t :: rest'))).map (awRep mode)
        rw [winChunks_cons ws w0 (w' ++ t :: rest'), hcur,
          takeFl_append_all ws cur (t :: rest') w' hall,
          dropFl_append_all ws cur (t :: rest') w' hall]
        have htf : takeFl ws cur (t :: rest') = [] := by
          show (if t / ws * ws = cur then t :: takeFl ws cur rest' else []) = []
          rw [if_neg (by omega)]
        have hdf : dropFl ws cur (t :: rest') = t :: rest' := by
          show (if t / ws * ws = cur then dropFl ws cur rest' else t :: rest') = t :: rest'
          rw [if_neg (by omega)]
        rw [htf, hdf, List.append_nil]
        rfl
      · have hle : w0 ≤ t := (List.pairwise_append.mp hsort).2.2 w0 (by simp) t (by simp)
        have hge : cur ≤ t / ws * ws := by
          rw [← hcur]
          exact floor_mono ws w0 t hle
        have heq : t / ws * ws = cur := by omega
        have hrw : (w0 :: w') ++ t :: rest' = ((w0 :: w') ++ [t]) ++ rest' := by simp
        rw [if_neg hc,
          ih ((w0 :: w') ++ [t]) cur (by simp)
            (by intro a ha
                rcases List.mem_append.mp ha with h | h
                · exact hfl a h
                · rw [List.mem_singleton.mp h]
                  exact heq)
            (by rw [← hrw]; exact hsort)
            (by rw [← hrw]; exact hov),
          ← hrw]

/-- Claim C5 (amended): for an ascending-sorted non-empty sample list, a
positive window size, one of the three window modes, and provided no
window floor plus the window size overflows u64 (otherwise the wrapped
synthetic closing boundary fails the `next_window > current_window` test
and the final window's representative is silently dropped),
`apply_window` emits exactly one representative per window, in order:
its output is the image under the mode's representative of the partition
of the input into its maximal runs of equal window floor — windows never
merged (each chunk holds a single floor, and the chunks concatenate back
to the input) and never split (adjacent chunks have distinct floors) —
and the number of emitted values equals the number of distinct window
floors `t / window_size * window_size` spanned by the input. -/
theorem C5_window_count (ts : List Nat) (ws mode : Nat) (hne : ts ≠ []) (hws : 0 < ws)
    (hmode : mode < 3) (hsort : List.Pairwise (· ≤ ·) ts)
    (hov : ∀ t ∈ ts, t / ws * ws + ws < 2 ^ 64) :
    apply_window ts ws mode = (winChunks ws ts).map (awRep mode)
      ∧ (winChunks ws ts).flatten = ts
      ∧ (∀ w ∈ winChunks ws ts, w ≠ [] ∧ ∀ a ∈ w, ∀ b ∈ w, a / ws * ws = b / ws * ws)
      ∧ List.Chain' (fun w1 w2 => w1.headD 0 / ws * ws ≠ w2.headD 0 / ws * ws) (winChunks ws ts)
      ∧ (apply_window ts ws mode).length = (ts.map fun t => t / ws * ws).toFinset.card := by
  refine ⟨?_, winChunks_join ws ts, winChunks_mem ws ts, winChunks_chain ws ts, ?_⟩
  · cases ts with
    | nil => exact absurd rfl hne
    | cons t tail =>
      show (if ws = 0 then [] else awGo ws mode tail [t] (t / ws * ws)) = _
      rw [if_neg (by omega)]
      exact awGo_eq_chunks ws mode hws hmode tail [t] (t / ws * ws) (by simp)
        (fun a ha => by rw [List.mem_singleton.mp ha]) hsort hov
  · match ts with
    | [] => exact absurd rfl hne
    | t :: rest =>
      show (if ws = 0 then [] else awGo ws mode rest [t] (t / ws * ws)).length = _
      rw [if_neg (by omega)]
      have hov' : lastF (t / ws * ws) (rest.map fun u => u / ws * ws) + ws < 2 ^ 64 := by
        have hm := lastF_mem (rest.map fun u => u / ws * ws) (t / ws * ws)
        rcases List.mem_cons.mp hm with h | h
        · rw [h]
          exact hov t (by simp)
        · rcases List.mem_map.mp h with ⟨u, hu, hequ⟩
          rw [← hequ]
          exact hov u (by simp [hu])
      rw [awGo_length ws mode hws hmode rest [t] (t / ws * ws) hov', List.map_cons]
      have hfp := floors_pairwise (t :: rest) ws hsort
      simp only [List.map_cons] at hfp
      exact (toFinset_card_cntF (rest.map fun u => u / ws * ws) (t / ws * ws) hfp).symm

theorem C5_window_count_w :
    apply_window [5, 50, 110, 180, 205] 100 0 = (winChunks 100 [5, 50, 110, 180, 205]).map (awRep 0)
      ∧ (winChunks 100 [5, 50, 110, 180, 205]).flatten = [5, 50, 110, 180, 205]
      ∧ (∀ w ∈ winChunks 100 [5, 50, 110, 180, 205],
          w ≠ [] ∧ ∀ a ∈ w, ∀ b ∈ w, a / 100 * 100 = b / 100 * 100)
      ∧ List.Chain' (fun w1 w2 => w1.headD 0 / 100 * 100 ≠ w2.headD 0 / 100 * 100)
          (winChunks 100 [5, 50, 110, 180, 205])
      ∧ (apply_window [5, 50, 110, 180, 205] 100 0).length =
          (([5, 50, 110, 180, 205] : List Nat).map fun t => t / 100 * 100).toFinset.card :=
  C5_window_count [5, 50, 110, 180, 205] 100 0 (by decide) (by decide) (by decide)
    (by decide) (by decide)

/-- Claim C5 counterexample: with the single sample `2 ^ 64 - 1` and
window size 2, the closing boundary `current_window + window_size` wraps
to 0 in u64, so no window is emitted although one distinct window floor
is spanned. -/
theorem C5_window_count_cex :
    apply_window [2 ^ 64 - 1] 2 0 = []
      ∧ (([2 ^ 64 - 1] : List Nat).map fun t => t / 2 * 2).toFinset.card = 1 := by
  constructor
  · decide
  · simp

/-- Claim C8 (amended): for sorted samples, a positive window size and
no boundary overflow, every window closed in Mean mode emits exactly
the u64 sum of that window's samples (the exact sum reduced mod 2 ^ 64,
as the C `sum` accumulator wraps) divided by that window's sample count
with integer floor division: the output is, window by window, the
wrapped mean over the partition of the input into its maximal runs of
equal window floor. -/
theorem C8_window_mean (ts : List Nat) (ws : Nat) (hws : 0 < ws)
    (hsort : List.Pairwise (· ≤ ·) ts)
    (hov : ∀ t ∈ ts, t / ws * ws + ws < 2 ^ 64) :
    apply_window ts ws 2 = (winChunks ws ts).map (fun w => w.sum % 2 ^ 64 / w.length)
      ∧ (winChunks ws ts).flatten = ts
      ∧ ∀ w ∈ winChunks ws ts, w ≠ [] ∧ ∀ a ∈ w, ∀ b ∈ w, a / ws * ws = b / ws * ws := by
  refine ⟨?_, winChunks_join ws ts, winChunks_mem ws ts⟩
  have hfn : awRep 2 = fun w : List Nat => w.sum % 2 ^ 64 / w.length := funext fun w => rfl
  cases ts with
  | nil => rfl
  | cons t tail =>
    show (if ws = 0 then [] else awGo ws 2 tail [t] (t / ws * ws)) = _
    rw [if_neg (by omega), ← hfn]
    exact awGo_eq_chunks ws 2 hws (by omega) tail [t] (t / ws * ws) (by simp)
      (fun a ha => by rw [List.mem_singleton.mp ha]) hsort hov

theorem C8_window_mean_w :
    apply_window [5, 50, 110, 180, 205] 100 2 =
        (winChunks 100 [5, 50, 110, 180, 205]).map (fun w => w.sum % 2 ^ 64 / w.length)
      ∧ (winChunks 100 [5, 50, 110, 180, 205]).flatten = [5, 50, 110, 180, 205]
      ∧ ∀ w ∈ winChunks 100 [5, 50, 110, 180, 205],
          w ≠ [] ∧ ∀ a ∈ w, ∀ b ∈ w, a / 100 * 100 = b / 100 * 100 :=
  C8_window_mean [5, 50, 110, 180, 205] 100 (by decide) (by decide) (by decide)

/-- Claim C8 counterexample: two samples `2 ^ 63` in one window (window
size 1) make the u64 sum wrap to 0, so the emitted Mean representative
is 0, not the exact sum divided by the count, which is `2 ^ 63`. -/
theorem C8_window_mean_cex :
    apply_window [2 ^ 63, 2 ^ 63] 1 2 = [0]
      ∧ ((2 : Nat) ^ 63 + 2 ^ 63) / 2 = 2 ^ 63
      ∧ (0 : Nat) ≠ 2 ^ 63 := by
  refine ⟨by decide, by norm_num, by norm_num⟩

theorem beBytes_length : ∀ (n v : Nat), (beBytes n v).length = n := by
  intro n
  induction n with
  | zero => intro v; rfl
  | succ n ih =>
    intro v
    show (v / 2 ^ (8 * n) % 256 :: beBytes n v).length = n + 1
    simp [ih v]

theorem foldl_beBytes :
    ∀ (n v a : Nat),
      List.foldl (fun acc b => acc * 256 + b) a (beBytes n v) =
        a * 2 ^ (8 * n) + v % 2 ^ (8 * n) := by
  intro n
  induction n with
  | zero => intro v a; simp [beBytes, Nat.mod_one]
  | succ n ih =>
    intro v a
    show List.foldl _ _ (v / 2 ^ (8 * n) % 256 :: beBytes n v) = _
    rw [List.foldl_cons, ih v (a * 256 + v / 2 ^ (8 * n) % 256)]
    have h1 : (2 : Nat) ^ (8 * (n + 1)) = 2 ^ (8 * n) * 256 := by
      rw [show 8 * (n + 1) = 8 * n + 8 by ring, pow_add]
      norm_num
    have h2 : v % (2 ^ (8 * n) * 256) = v % 2 ^ (8 * n) + 2 ^ (8 * n) * (v / 2 ^ (8 * n) % 256) :=
      Nat.mod_mul
    rw [h1, h2]
    ring

theorem fromBE_beBytes (n v : Nat) (h : v < 2 ^ (8 * n)) : fromBE (beBytes n v) = v := by
  rw [fromBE, foldl_beBytes n v 0, Nat.mod_eq_of_lt h]
  simp

/-- Claim C6: for every packet with u64 timestamp, u64 delta and u32
sequence, decoding the big-endian field encoding returns the packet
unchanged: `decode (encode p) = p`. -/
theorem C6_packet_roundtrip (p : TRNGPacket) (h1 : p.timestamp_ns < 2 ^ 64)
    (h2 : p.delta_ns < 2 ^ 64) (h3 : p.sequence < 2 ^ 32) :
    decode_packet (encode_packet p) = some p := by
  obtain ⟨ts, dl, sq⟩ := p
  have l1 : (beBytes 8 ts).length = 8 := beBytes_length 8 ts
  have l2 : (beBytes 8 dl).length = 8 := beBytes_length 8 dl
  have hlen : (encode_packet ⟨ts, dl, sq⟩).length = 20 := by
    simp [encode_packet, List.length_append, beBytes_length]
  have htake : (encode_packet ⟨ts, dl, sq⟩).take 8 = beBytes 8 ts := List.take_left' l1
  have hdrop : (encode_packet ⟨ts, dl, sq⟩).drop 8 = beBytes 8 dl ++ beBytes 4 sq :=
    List.drop_left' l1
  have htake2 : (beBytes 8 dl ++ beBytes 4 sq).take 8 = beBytes 8 dl := List.take_left' l2
  have hdrop16 : (encode_packet ⟨ts, dl, sq⟩).drop 16 = beBytes 4 sq := by
    show (beBytes 8 ts ++ (beBytes 8 dl ++ beBytes 4 sq)).drop 16 = _
    rw [← List.append_assoc]
    exact List.drop_left' (by rw [List.length_append, l1, l2])
  unfold decode_packet
  rw [if_pos hlen, htake, hdrop, htake2, hdrop16,
    fromBE_beBytes 8 ts (by simpa using h1), fromBE_beBytes 8 dl (by simpa using h2),
    fromBE_beBytes 4 sq (by simpa using h3)]

theorem C6_packet_roundtrip_w :
    decode_packet (encode_packet (TRNGPacket.mk (2 ^ 63 + 5) 12345 (2 ^ 31 + 7))) =
      some (TRNGPacket.mk (2 ^ 63 + 5) 12345 (2 ^ 31 + 7)) :=
  C6_packet_roundtrip (TRNGPacket.mk (2 ^ 63 + 5) 12345 (2 ^ 31 + 7))
    (by norm_num) (by norm_num) (by norm_num)
